import Mathlib

/-!
Verification of the content-defined chunking core of zvault.

The configuration model (algorithm tag, average size, seed, textual form)
is embedded from src/chunker/mod.rs.  The three chunking algorithms (AE,
Rabin, FastCDC) are declared there as submodules but their files are not
part of the provided sources, so they are modelled from the design
document, as marked on each definition.

Rust strings are modelled as lists of characters, `usize` as natural
numbers below 2 ^ 64 with explicit wrap-around where the code can
overflow, and `u32` seeds as natural numbers reduced modulo 2 ^ 32.
-/

namespace ZVault

/-- The width of `usize` on the 64-bit target: values wrap modulo this. -/
def usizeWidth : Nat := 2 ^ 64

/-- The width of `u32`: values wrap modulo this. -/
def u32Width : Nat := 2 ^ 32

/-- The chunker algorithm identifier with its parameters, embedding
`enum ChunkerType` of src/chunker/mod.rs: `Ae(usize)`,
`Rabin((usize, u32))`, `FastCdc((usize, u64))`. -/
inductive ChunkerType where
  | Ae (size : Nat)
  | Rabin (size : Nat) (seed : Nat)
  | FastCdc (size : Nat) (seed : Nat)
deriving DecidableEq, Repr

/-- The characters of the Rust string literal for the AE algorithm name. -/
def aeName : List Char := ['a', 'e']

/-- The characters of the Rust string literal for the Rabin algorithm name. -/
def rabinName : List Char := ['r', 'a', 'b', 'i', 'n']

/-- The characters of the Rust string literal for the FastCDC algorithm name. -/
def fastcdcName : List Char := ['f', 'a', 's', 't', 'c', 'd', 'c']

/-- The error text of `ChunkerType::from` for an unknown algorithm name. -/
def errUnsupported : String := "Unsupported chunker type"

/-- The error text of `ChunkerType::from_string` for an unparsable size. -/
def errSizeNumber : String := "Chunk size must be a number"

/-- Embeds `ChunkerType::from` (src/chunker/mod.rs lines 94-101): match on
the name, store `avg_size` unchanged, and store the seed truncated with
`as u32` for Rabin, in full for FastCDC, not at all for AE. -/
def ChunkerType.fromParams (nm : List Char) (avg_size : Nat) (seed : Nat) :
    Except String ChunkerType :=
  if nm = aeName then .ok (.Ae avg_size)
  else if nm = rabinName then .ok (.Rabin avg_size (seed % u32Width))
  else if nm = fastcdcName then .ok (.FastCdc avg_size seed)
  else .error errUnsupported

/-- The digit-accumulation loop of Rust core's `usize::from_str`: each
character must be an ASCII digit, and the accumulator must stay below
`2 ^ 64` (checked multiply-add), otherwise parsing fails. -/
def parseDigits : List Char → Nat → Option Nat
  | [], acc => some acc
  | c :: cs, acc =>
    if '0' ≤ c ∧ c ≤ '9' then
      if acc * 10 + (c.toNat - 48) < usizeWidth then
        parseDigits cs (acc * 10 + (c.toNat - 48))
      else none
    else none

/-- Embeds `usize::from_str`: an empty string fails, a leading `'+'` is
allowed before at least one digit, any other non-digit fails. -/
def usizeFromStr (s : List Char) : Option Nat :=
  match s with
  | [] => none
  | c :: rest =>
    if c = '+' then
      match rest with
      | [] => none
      | _ :: _ => parseDigits rest 0
    else parseDigits s 0

/-- Embeds `name.find('/')` plus the two slices `&name[..pos]` and
`&name[pos+1..]`: split at the first `'/'`, if any. -/
def splitAtSlash : List Char → Option (List Char × List Char)
  | [] => none
  | c :: rest =>
    if c = '/' then some ([], rest)
    else (splitAtSlash rest).map fun p => (c :: p.1, p.2)

/-- Embeds `ChunkerType::from_string` (src/chunker/mod.rs lines 103-112):
split at the first `'/'`, parse the suffix as a `usize` (default 8 when
there is no slash), multiply by 1024 (wrapping as `usize` does in release
builds) and delegate to `ChunkerType::from` with seed 0. -/
def ChunkerType.from_string (text : List Char) : Except String ChunkerType :=
  match splitAtSlash text with
  | some (nm, sizeText) =>
    match usizeFromStr sizeText with
    | none => .error errSizeNumber
    | some size => ChunkerType.fromParams nm (size * 1024 % usizeWidth) 0
  | none => ChunkerType.fromParams text (8 * 1024 % usizeWidth) 0

/-- Embeds `ChunkerType::name`. -/
def ChunkerType.name : ChunkerType → List Char
  | .Ae _ => aeName
  | .Rabin _ _ => rabinName
  | .FastCdc _ _ => fastcdcName

/-- Embeds `ChunkerType::avg_size`. -/
def ChunkerType.avg_size : ChunkerType → Nat
  | .Ae s => s
  | .Rabin s _ => s
  | .FastCdc s _ => s

/-- Embeds `ChunkerType::seed`: 0 for AE, the stored 32-bit seed
zero-extended for Rabin, the stored 64-bit seed for FastCDC. -/
def ChunkerType.seed : ChunkerType → Nat
  | .Ae _ => 0
  | .Rabin _ sd => sd
  | .FastCdc _ sd => sd

/-- The character for the decimal digit `n` (`n < 10`). -/
def digitChar (n : Nat) : Char := Char.ofNat (48 + n)

/-- Fuel-driven decimal printing: with fuel above `n` this produces the
usual most-significant-first digit string of `n`. -/
def toDecimalAux : Nat → Nat → List Char
  | 0, _ => []
  | fuel + 1, n =>
    if n < 10 then [digitChar n]
    else toDecimalAux fuel (n / 10) ++ [digitChar (n % 10)]

/-- The decimal digit string of `n`, as Rust's `format!` prints a `usize`. -/
def toDecimal (n : Nat) : List Char := toDecimalAux (n + 1) n

/-- Embeds `ChunkerType::to_string` (src/chunker/mod.rs lines 140-142):
the name, a slash, then `avg_size / 1024` in decimal. -/
def ChunkerType.to_string (c : ChunkerType) : List Char :=
  c.name ++ '/' :: toDecimal (c.avg_size / 1024)

/-- The name part of a chunker description string: the text before the
first `'/'`, or the whole text when no `'/'` occurs. -/
def namePartOf (s : List Char) : List Char :=
  match splitAtSlash s with
  | some (pre, _) => pre
  | none => s

theorem fromParams_error_iff (nm : List Char) (a sd : Nat) :
    (∃ e, ChunkerType.fromParams nm a sd = .error e) ↔
      nm ≠ aeName ∧ nm ≠ rabinName ∧ nm ≠ fastcdcName := by
  have hra : rabinName ≠ aeName := by decide
  have hfa : fastcdcName ≠ aeName := by decide
  have hfr : fastcdcName ≠ rabinName := by decide
  unfold ChunkerType.fromParams
  by_cases h1 : nm = aeName
  · simp [h1]
  · by_cases h2 : nm = rabinName
    · simp [h1, h2, hra]
    · by_cases h3 : nm = fastcdcName
      · simp [h1, h2, h3, hfa, hfr]
      · simp [h1, h2, h3]

theorem fromParams_avg (nm : List Char) (a sd : Nat) (c : ChunkerType)
    (h : ChunkerType.fromParams nm a sd = .ok c) : c.avg_size = a := by
  unfold ChunkerType.fromParams at h
  split at h
  · cases h; rfl
  · split at h
    · cases h; rfl
    · split at h
      · cases h; rfl
      · cases h

/-- Claim C7: a config built by `ChunkerType::from` reports through `seed()`
the value 0 for AE (the seed is ignored), the seed modulo `2 ^ 32` for Rabin
(truncated with `as u32` and zero-extended back), and the seed unchanged
for FastCDC. -/
theorem c7_seed_widths (avg s : Nat) :
    (ChunkerType.fromParams aeName avg s).map ChunkerType.seed = .ok 0 ∧
    (ChunkerType.fromParams rabinName avg s).map ChunkerType.seed = .ok (s % 2 ^ 32) ∧
    (ChunkerType.fromParams fastcdcName avg s).map ChunkerType.seed = .ok s := by
  have hra : rabinName ≠ aeName := by decide
  have hfa : fastcdcName ≠ aeName := by decide
  have hfr : fastcdcName ≠ rabinName := by decide
  refine ⟨rfl, ?_, ?_⟩
  · unfold ChunkerType.fromParams
    rw [if_neg hra, if_pos rfl]
    rfl
  · unfold ChunkerType.fromParams
    rw [if_neg hfa, if_neg hfr, if_pos rfl]
    rfl

/-- Claim C8: parsing a bare algorithm name with no slash suffix succeeds
and yields a config with `avg_size` 8192 bytes and seed 0, for each of the
three names. -/
theorem c8_bare_name_defaults :
    (ChunkerType.from_string aeName).map (fun c => (c.avg_size, c.seed)) = .ok (8192, 0) ∧
    (ChunkerType.from_string rabinName).map (fun c => (c.avg_size, c.seed)) = .ok (8192, 0) ∧
    (ChunkerType.from_string fastcdcName).map (fun c => (c.avg_size, c.seed)) = .ok (8192, 0) :=
  ⟨rfl, rfl, rfl⟩

/-- Claim C5 counterexample: `ChunkerType::from` accepts the non-power-of-two
average size 100 for both Rabin and FastCDC and returns a config, where the
claim requires a `ConfigInvalid` failure with no config returned. -/
theorem c5_counterexample :
    ChunkerType.fromParams rabinName 100 0 = .ok (.Rabin 100 0) ∧
    ChunkerType.fromParams fastcdcName 100 7 = .ok (.FastCdc 100 7) ∧
    ¬ ∃ k, (100 : Nat) = 2 ^ k := by
  refine ⟨rfl, rfl, ?_⟩
  rintro ⟨k, hk⟩
  rcases Nat.lt_or_ge k 7 with h | h
  · interval_cases k <;> norm_num at hk
  · have h2 : (128 : Nat) ≤ 2 ^ k := by
      calc (128 : Nat) = 2 ^ 7 := by norm_num
      _ ≤ 2 ^ k := Nat.pow_le_pow_right (by norm_num) h
    omega

/-- Claim C5 amended: construction performs no power-of-two validation at
all: for every `avg_size` (power of two or not) and seed, `ChunkerType::from`
returns a Rabin or FastCDC config carrying exactly that `avg_size`; no
`ConfigInvalid` error path exists in the constructor for these names. -/
theorem c5_amended (avg s : Nat) :
    ChunkerType.fromParams rabinName avg s = .ok (.Rabin avg (s % 2 ^ 32)) ∧
    ChunkerType.fromParams fastcdcName avg s = .ok (.FastCdc avg s) := by
  have hra : rabinName ≠ aeName := by decide
  have hfa : fastcdcName ≠ aeName := by decide
  have hfr : fastcdcName ≠ rabinName := by decide
  constructor
  · unfold ChunkerType.fromParams
    rw [if_neg hra, if_pos rfl]
    rfl
  · unfold ChunkerType.fromParams
    rw [if_neg hfa, if_neg hfr, if_pos rfl]

/-- Claim C9 counterexample: the accepted input `"ae/0"` produces a config
whose `avg_size` is 0, so not every config obtainable through the public
constructors has a strictly positive `avg_size`. -/
theorem c9_counterexample :
    ChunkerType.from_string (aeName ++ ['/', '0']) = .ok (.Ae 0) ∧
    (ChunkerType.Ae 0).avg_size = 0 :=
  ⟨rfl, rfl⟩

/-- Claim C9 amended: the public constructors perform no positivity check:
`ChunkerType::from` stores any `avg_size` unchanged (including 0), and every
config produced by `ChunkerType::from_string` has an `avg_size` divisible by
1024, with 0 reachable from the input `"ae/0"`. -/
theorem c9_amended :
    (∀ s c, ChunkerType.from_string s = .ok c → 1024 ∣ c.avg_size) ∧
    (∀ nm a sd c, ChunkerType.fromParams nm a sd = .ok c → c.avg_size = a) := by
  have hdvd : (1024 : Nat) ∣ usizeWidth := ⟨2 ^ 54, by norm_num [usizeWidth]⟩
  constructor
  · intro s c h
    unfold ChunkerType.from_string at h
    split at h
    · split at h
      · cases h
      · rename_i k hus
        rw [fromParams_avg _ _ _ _ h]
        exact (Nat.dvd_mod_iff hdvd).mpr ⟨k, by ring⟩
    · rw [fromParams_avg _ _ _ _ h]
      exact (Nat.dvd_mod_iff hdvd).mpr (by norm_num)
  · exact fromParams_avg

/-- Claim C9 amended, witness. -/
theorem c9_amended_witness :
    1024 ∣ (ChunkerType.Ae 8192).avg_size ∧ (ChunkerType.Ae 5).avg_size = 5 :=
  ⟨c9_amended.1 aeName (.Ae 8192) rfl, c9_amended.2 aeName 5 0 (.Ae 5) rfl⟩

/-- Claim C6: `ChunkerType::from_string` fails exactly when the name part
(the text before the first slash, or the whole text without one) is none of
the three algorithm names, or a slash is present and the text after it does
not parse as a `usize`; in every other case a config is returned. -/
theorem c6_error_characterization (s : List Char) :
    (∃ e, ChunkerType.from_string s = .error e) ↔
      (namePartOf s ≠ aeName ∧ namePartOf s ≠ rabinName ∧ namePartOf s ≠ fastcdcName) ∨
      (∃ nm sizeText, splitAtSlash s = some (nm, sizeText) ∧ usizeFromStr sizeText = none) := by
  unfold ChunkerType.from_string namePartOf
  rcases hsp : splitAtSlash s with _ | ⟨nm, sizeText⟩
  · simp only [hsp]
    rw [fromParams_error_iff]
    simp
  · simp only [hsp]
    rcases hus : usizeFromStr sizeText with _ | k
    · simp only [hus]
      constructor
      · intro _
        exact Or.inr ⟨nm, sizeText, rfl, hus⟩
      · intro _
        exact ⟨errSizeNumber, rfl⟩
    · simp only [hus]
      rw [fromParams_error_iff]
      constructor
      · intro hl
        exact Or.inl hl
      · rintro (hl | ⟨nm2, st2, heq, hn⟩)
        · exact hl
        · rw [Option.some_inj] at heq
          cases heq
          rw [hus] at hn
          cases hn

theorem digitChar_is_digit :
    ∀ n, n < 10 → '0' ≤ digitChar n ∧ digitChar n ≤ '9' ∧ (digitChar n).toNat - 48 = n := by
  decide

theorem parseDigits_append (l1 l2 : List Char) :
    ∀ acc, parseDigits (l1 ++ l2) acc =
      (parseDigits l1 acc).bind fun m => parseDigits l2 m := by
  induction l1 with
  | nil =>
    intro acc
    simp [parseDigits]
  | cons c cs ih =>
    intro acc
    simp only [List.cons_append, parseDigits]
    by_cases h1 : '0' ≤ c ∧ c ≤ '9'
    · simp only [if_pos h1]
      by_cases h2 : acc * 10 + (c.toNat - 48) < usizeWidth
      · simp only [if_pos h2]
        exact ih _
      · simp only [if_neg h2]
        rfl
    · simp only [if_neg h1]
      rfl

theorem parseDigits_toDecimalAux :
    ∀ fuel n acc, n < fuel → acc * 10 ^ (toDecimalAux fuel n).length + n < usizeWidth →
      parseDigits (toDecimalAux fuel n) acc =
        some (acc * 10 ^ (toDecimalAux fuel n).length + n) := by
  intro fuel
  induction fuel with
  | zero =>
    intro n acc h
    omega
  | succ fuel ih =>
    intro n acc hn hlt
    by_cases h10 : n < 10
    · simp only [toDecimalAux, if_pos h10, List.length_cons, List.length_nil, pow_one,
        Nat.zero_add] at hlt ⊢
      have hd := digitChar_is_digit n h10
      simp only [parseDigits]
      rw [hd.2.2]
      rw [if_pos ⟨hd.1, hd.2.1⟩, if_pos hlt]
    · simp only [toDecimalAux, if_neg h10, List.length_append, List.length_cons,
        List.length_nil, Nat.zero_add] at hlt ⊢
      have hkey : ∀ B : Nat, (B + n / 10) * 10 + n % 10 = B * 10 + n := by
        intro B
        omega
      have htot : (acc * 10 ^ (toDecimalAux fuel (n / 10)).length + n / 10) * 10 + n % 10
          = acc * 10 ^ ((toDecimalAux fuel (n / 10)).length + 1) + n := by
        rw [hkey, pow_succ]
        ring
      have hn10 : n / 10 < fuel := by
        have hlt1 : n / 10 < n := Nat.div_lt_self (by omega) (by omega)
        omega
      have hmid : acc * 10 ^ (toDecimalAux fuel (n / 10)).length + n / 10 < usizeWidth := by
        have h2 := htot
        generalize hM : acc * 10 ^ (toDecimalAux fuel (n / 10)).length + n / 10 = M at h2 ⊢
        generalize hT : acc * 10 ^ ((toDecimalAux fuel (n / 10)).length + 1) + n = T at h2 hlt
        omega
      rw [parseDigits_append, ih (n / 10) acc hn10 hmid]
      have hd := digitChar_is_digit (n % 10) (Nat.mod_lt n (by omega))
      simp only [Option.bind]
      simp only [parseDigits]
      rw [hd.2.2]
      rw [if_pos ⟨hd.1, hd.2.1⟩, if_pos (by rw [htot]; exact hlt)]
      rw [htot]

theorem toDecimalAux_digits :
    ∀ fuel n, n < fuel → ∀ c ∈ toDecimalAux fuel n, '0' ≤ c ∧ c ≤ '9' := by
  intro fuel
  induction fuel with
  | zero =>
    intro n h
    omega
  | succ fuel ih =>
    intro n hn c hc
    by_cases h10 : n < 10
    · rw [toDecimalAux, if_pos h10, List.mem_singleton] at hc
      subst hc
      have hd := digitChar_is_digit n h10
      exact ⟨hd.1, hd.2.1⟩
    · rw [toDecimalAux, if_neg h10] at hc
      rcases List.mem_append.mp hc with hc | hc
      · have hn10 : n / 10 < fuel := by
          have hlt1 : n / 10 < n := Nat.div_lt_self (by omega) (by omega)
          omega
        exact ih (n / 10) hn10 c hc
      · rw [List.mem_singleton] at hc
        subst hc
        have hd := digitChar_is_digit (n % 10) (Nat.mod_lt n (by omega))
        exact ⟨hd.1, hd.2.1⟩

theorem toDecimalAux_ne_nil :
    ∀ fuel n, n < fuel → toDecimalAux fuel n ≠ [] := by
  intro fuel
  cases fuel with
  | zero =>
    intro n h
    omega
  | succ fuel =>
    intro n _
    rw [toDecimalAux]
    by_cases h10 : n < 10
    · rw [if_pos h10]
      exact List.cons_ne_nil _ _
    · rw [if_neg h10]
      intro he
      exact absurd (List.append_eq_nil.mp he).2 (List.cons_ne_nil _ _)

theorem usizeFromStr_toDecimal (n : Nat) (h : n < usizeWidth) :
    usizeFromStr (toDecimal n) = some n := by
  unfold toDecimal
  rcases hcons : toDecimalAux (n + 1) n with _ | ⟨c, rest⟩
  · exact absurd hcons (toDecimalAux_ne_nil _ _ (Nat.lt_succ_self n))
  · have hc : '0' ≤ c ∧ c ≤ '9' := by
      refine toDecimalAux_digits _ n (Nat.lt_succ_self n) c ?_
      rw [hcons]
      exact List.mem_cons_self c rest
    have hplus : c ≠ '+' := by
      intro he
      rw [he] at hc
      exact absurd hc.1 (by decide)
    simp only [usizeFromStr]
    rw [if_neg hplus, ← hcons]
    have hp := parseDigits_toDecimalAux (n + 1) n 0 (Nat.lt_succ_self n) (by simpa using h)
    simpa using hp

theorem splitAtSlash_append (pre post : List Char) (h : '/' ∉ pre) :
    splitAtSlash (pre ++ '/' :: post) = some (pre, post) := by
  induction pre with
  | nil =>
    simp [splitAtSlash]
  | cons c cs ih =>
    have hc : c ≠ '/' := by
      intro he
      rw [he] at h
      exact h (List.mem_cons_self _ _)
    have hcs : '/' ∉ cs := fun hm => h (List.mem_cons_of_mem _ hm)
    simp only [List.cons_append, splitAtSlash, List.append_eq]
    rw [if_neg hc, ih hcs]
    rfl

theorem roundtrip_core (c : ChunkerType) (h0 : c.seed = 0)
    (hd : 1024 ∣ c.avg_size) (hlt : c.avg_size < usizeWidth) :
    ChunkerType.from_string (ChunkerType.to_string c) = .ok c := by
  have hra : rabinName ≠ aeName := by decide
  have hfa : fastcdcName ≠ aeName := by decide
  have hfr : fastcdcName ≠ rabinName := by decide
  have hsplit : splitAtSlash (c.name ++ '/' :: toDecimal (c.avg_size / 1024))
      = some (c.name, toDecimal (c.avg_size / 1024)) := by
    apply splitAtSlash_append
    cases c <;> simp only [ChunkerType.name] <;> decide
  have hdiv : c.avg_size / 1024 < usizeWidth := lt_of_le_of_lt (Nat.div_le_self _ _) hlt
  have hparse := usizeFromStr_toDecimal (c.avg_size / 1024) hdiv
  have hmul : c.avg_size / 1024 * 1024 % usizeWidth = c.avg_size := by
    rw [Nat.div_mul_cancel hd]
    exact Nat.mod_eq_of_lt hlt
  unfold ChunkerType.to_string ChunkerType.from_string
  simp only [hsplit, hparse, hmul]
  unfold ChunkerType.fromParams
  cases c with
  | Ae a =>
    simp [ChunkerType.name, ChunkerType.avg_size, u32Width]
  | Rabin a sd =>
    have hsd : sd = 0 := h0
    subst hsd
    simp [ChunkerType.name, ChunkerType.avg_size, u32Width, hra]
  | FastCdc a sd =>
    have hsd : sd = 0 := h0
    subst hsd
    simp [ChunkerType.name, ChunkerType.avg_size, u32Width, hfa, hfr]

/-- Claim C3 counterexample: the textual round-trip fails for well-formed
configs with a nonzero seed (the seed is not part of the textual form and
comes back as 0) and for configs whose `avg_size` is not a multiple of 1024
(the size is divided by 1024 with truncation when formatting). -/
theorem c3_counterexample :
    ChunkerType.from_string (ChunkerType.to_string (.Rabin 8192 1)) = .ok (.Rabin 8192 0) ∧
    ChunkerType.Rabin 8192 0 ≠ ChunkerType.Rabin 8192 1 ∧
    ChunkerType.from_string (ChunkerType.to_string (.Ae 100)) = .ok (.Ae 0) ∧
    ChunkerType.Ae 0 ≠ ChunkerType.Ae 100 :=
  ⟨rfl, by decide, rfl, by decide⟩

/-- Claim C3 amended: the textual round-trip
`from_string (to_string c) = c` holds exactly on configs whose seed is 0
and whose `avg_size` is a multiple of 1024 (within the `usize` range); the
textual form drops the seed (parse assumes 0) and expresses the size in
whole KiB. -/
theorem c3_amended (c : ChunkerType) (h0 : c.seed = 0) (hd : 1024 ∣ c.avg_size)
    (hlt : c.avg_size < 2 ^ 64) :
    ChunkerType.from_string (ChunkerType.to_string c) = .ok c :=
  roundtrip_core c h0 hd hlt

/-- Claim C3 amended, witness. -/
theorem c3_amended_witness :
    ChunkerType.from_string (ChunkerType.to_string (.Rabin 2048 0)) = .ok (.Rabin 2048 0) :=
  c3_amended (.Rabin 2048 0) rfl (by decide) (by decide)

/-- Claim C10: for every config whose seed is 0 and whose `avg_size` is a
positive multiple of 1024 (a representable `usize`), parsing the formatted
textual form returns a config equal to the original. -/
theorem c10_roundtrip_restricted (c : ChunkerType) (h0 : c.seed = 0)
    (_hpos : 0 < c.avg_size) (hd : 1024 ∣ c.avg_size) (hlt : c.avg_size < 2 ^ 64) :
    ChunkerType.from_string (ChunkerType.to_string c) = .ok c :=
  roundtrip_core c h0 hd hlt

/-- Claim C10, witness. -/
theorem c10_roundtrip_restricted_witness :
    ChunkerType.from_string (ChunkerType.to_string (.FastCdc 4096 0)) = .ok (.FastCdc 4096 0) :=
  c10_roundtrip_restricted (.FastCdc 4096 0) rfl (by decide) (by decide) (by decide)

/-- Modelled from the spec: the algorithm implementation files
src/chunker/ae.rs, src/chunker/rabin.rs and src/chunker/fastcdc.rs are
declared in src/chunker/mod.rs but absent from the sources.  This generic
per-chunk scanner realises the shared size policy of the design document:
per consumed byte, a cut is forced once `maxS` bytes of the current chunk
have accumulated (taking precedence over the content-defined condition),
a content-defined cut reported by `step` is honoured only once `minS`
bytes have accumulated, and source EOF ends the chunk with whatever was
consumed.  It returns the length of the first chunk of the remaining
input, scanning from per-chunk state `st` at chunk-relative position `i`. -/
def scanChunk {σ : Type} (step : σ → Nat → Nat → σ × Bool) (minS maxS : Nat) :
    List Nat → σ → Nat → Nat
  | [], _, i => i
  | b :: rest, st, i =>
    if maxS ≤ i + 1 then i + 1
    else if minS ≤ i + 1 ∧ (step st b i).2 then i + 1
    else scanChunk step minS maxS rest (step st b i).1 (i + 1)

/-- Modelled from the spec: the caller loop that invokes `chunk` until
`Finished`, collecting one chunk per call; per-chunk state resets to `st0`
at every emitted boundary while the config is kept.  Fuel-driven so that it
is structural; `chunkAll` supplies sufficient fuel. -/
def chunkAllAux {σ : Type} (step : σ → Nat → Nat → σ × Bool) (minS maxS : Nat)
    (st0 : σ) : Nat → List Nat → List (List Nat)
  | 0, _ => []
  | _ + 1, [] => []
  | fuel + 1, b :: rest =>
    (b :: rest).take (scanChunk step minS maxS (b :: rest) st0 0) ::
      chunkAllAux step minS maxS st0 fuel
        ((b :: rest).drop (scanChunk step minS maxS (b :: rest) st0 0))

/-- Modelled from the spec: chunk an entire input stream into the ordered
list of emitted chunks. -/
def chunkAll {σ : Type} (step : σ → Nat → Nat → σ × Bool) (minS maxS : Nat)
    (st0 : σ) (s : List Nat) : List (List Nat) :=
  chunkAllAux step minS maxS st0 s.length s

/-- Modelled from the spec: AE per-chunk state, the maximum byte value seen
in the current chunk and its chunk-relative position. -/
structure AeState where
  maxVal : Nat
  maxPos : Nat
deriving DecidableEq, Repr

/-- Modelled from the spec: the AE decision for the byte at chunk-relative
position `i`: while `i < maxPos + w` the extremum is updated (no cut);
once `i ≥ maxPos + w` a cutpoint is emitted after the current byte. -/
def aeStep (w : Nat) (st : AeState) (b i : Nat) : AeState × Bool :=
  if i < st.maxPos + w then
    (if st.maxVal < b then ⟨b, i⟩ else st, false)
  else (st, true)

/-- Modelled from the spec: the AE window `w = avg / (e - 1) ≈ avg * 0.5820`,
fixed at construction (the spec gives the constant only to four digits). -/
def aeWindowSize (avg : Nat) : Nat := avg * 5820 / 10000

/-- Modelled from the spec: Rabin per-chunk state, the 32-bit rolling hash
register and the window of the last (up to 64) consumed bytes. -/
structure RabinState where
  hash : Nat
  window : List Nat
deriving DecidableEq, Repr

/-- Modelled from the spec: the seeded 256-entry out-table cancelling the
contribution of the byte leaving the window.  The spec fixes the table's
role but not its generation formula, so any fixed deterministic seeded
derivation is faithful; a simple integer mix is used. -/
def rabinOutTable (seed b : Nat) : Nat :=
  (seed * 2654435761 + b * 40503 + 257) % 2 ^ 32

/-- Modelled from the spec: the Rabin per-byte update
`h ← ((h << 8) | b) XOR T_out[outgoing]` as 32 bits over a 64-byte window
(no eviction while the window is filling), with cutpoint condition
`(h & mask) == 0` for `mask = avg_size - 1` and magic 0. -/
def rabinStep (seed mask : Nat) (st : RabinState) (b _i : Nat) : RabinState × Bool :=
  if st.window.length < 64 then
    (⟨((st.hash <<< 8) ||| b % 256) % 2 ^ 32, st.window ++ [b % 256]⟩,
      ((st.hash <<< 8) ||| b % 256) % 2 ^ 32 &&& mask == 0)
  else
    (⟨(((st.hash <<< 8) ||| b % 256) ^^^ rabinOutTable seed (st.window.headD 0)) % 2 ^ 32,
        st.window.tail ++ [b % 256]⟩,
      (((st.hash <<< 8) ||| b % 256) ^^^ rabinOutTable seed (st.window.headD 0)) % 2 ^ 32
        &&& mask == 0)

/-- Modelled from the spec: base-2 logarithm by repeated halving,
fuel-driven so that it is structural and evaluable. -/
def log2Aux : Nat → Nat → Nat
  | 0, _ => 0
  | fuel + 1, n => if n < 2 then 0 else log2Aux fuel (n / 2) + 1

/-- Modelled from the spec: `log2(avg_size)`, used to derive the two
FastCDC cutpoint masks. -/
def natLog2 (n : Nat) : Nat := log2Aux n n

/-- Modelled from the spec: the splitmix64 mixer named by the design as the
sufficient deterministic derivation of the FastCDC gear table. -/
def splitmix64 (x : Nat) : Nat :=
  let z := (x + 0x9E3779B97F4A7C15) % 2 ^ 64
  let z2 := ((z ^^^ (z >>> 30)) * 0xBF58476D1CE4E5B9) % 2 ^ 64
  let z3 := ((z2 ^^^ (z2 >>> 27)) * 0x94D049BB133111EB) % 2 ^ 64
  (z3 ^^^ (z3 >>> 31)) % 2 ^ 64

/-- Modelled from the spec: the seeded 256-entry 64-bit gear table of
FastCDC, derived deterministically from the seed via splitmix64. -/
def gearTable (seed b : Nat) : Nat := splitmix64 ((seed + 256 * (b % 256) + 1) % 2 ^ 64)

/-- Modelled from the spec: FastCDC per-chunk state, the 64-bit gear hash. -/
structure FcState where
  hash : Nat
deriving DecidableEq, Repr

/-- Modelled from the spec: the harder mask (more set bits), used while the
chunk is shorter than `avg_size`: `log2(avg) + 2` low bits. -/
def maskSmall (avg : Nat) : Nat := 2 ^ (natLog2 avg + 2) - 1

/-- Modelled from the spec: the easier mask (fewer set bits), used from
`avg_size` on: `log2(avg) - 2` low bits. -/
def maskLarge (avg : Nat) : Nat := 2 ^ (natLog2 avg - 2) - 1

/-- Modelled from the spec: the FastCDC per-byte update
`h ← (h << 1) + G[b]` as 64 bits, with cutpoint condition
`(h & current_mask) == 0`, the mask switching at `avg_size`. -/
def fcStep (seed avg : Nat) (st : FcState) (b i : Nat) : FcState × Bool :=
  (⟨((st.hash <<< 1) + gearTable seed b) % 2 ^ 64⟩,
    ((st.hash <<< 1) + gearTable seed b) % 2 ^ 64 &&&
      (if i + 1 < avg then maskSmall avg else maskLarge avg) == 0)

/-- Modelled from the spec: a full AE run over an input stream with the
shared size policy `min = avg/4`, `max = avg*4` and fresh per-chunk state. -/
def aeChunks (avg : Nat) (s : List Nat) : List (List Nat) :=
  chunkAll (aeStep (aeWindowSize avg)) (avg / 4) (avg * 4) ⟨0, 0⟩ s

/-- Modelled from the spec: a full Rabin run over an input stream. -/
def rabinChunks (avg seed : Nat) (s : List Nat) : List (List Nat) :=
  chunkAll (rabinStep seed (avg - 1)) (avg / 4) (avg * 4) ⟨0, []⟩ s

/-- Modelled from the spec: a full FastCDC run over an input stream. -/
def fastcdcChunks (avg seed : Nat) (s : List Nat) : List (List Nat) :=
  chunkAll (fcStep seed avg) (avg / 4) (avg * 4) ⟨0⟩ s

/-- Modelled from the spec: the dispatcher (`Chunker::chunk` delegating per
variant, src/chunker/mod.rs lines 69-76): a complete run of a fresh chunker
instance created from the config, over a whole input stream. -/
def chunkerRun (c : ChunkerType) (s : List Nat) : List (List Nat) :=
  match c with
  | .Ae a => aeChunks a s
  | .Rabin a sd => rabinChunks a sd s
  | .FastCdc a sd => fastcdcChunks a sd s

theorem scanChunk_le {σ : Type} (step : σ → Nat → Nat → σ × Bool) (minS maxS : Nat) :
    ∀ (s : List Nat) (st : σ) (i : Nat), scanChunk step minS maxS s st i ≤ i + s.length := by
  intro s
  induction s with
  | nil =>
    intro st i
    simp [scanChunk]
  | cons b rest ih =>
    intro st i
    simp only [scanChunk, List.length_cons]
    split
    · omega
    · split
      · omega
      · have hr := ih (step st b i).1 (i + 1)
        omega

theorem scanChunk_ge {σ : Type} (step : σ → Nat → Nat → σ × Bool) (minS maxS : Nat) :
    ∀ (s : List Nat) (st : σ) (i : Nat), i ≤ scanChunk step minS maxS s st i := by
  intro s
  induction s with
  | nil =>
    intro st i
    simp [scanChunk]
  | cons b rest ih =>
    intro st i
    simp only [scanChunk]
    split
    · omega
    · split
      · omega
      · have hr := ih (step st b i).1 (i + 1)
        omega

theorem scanChunk_pos {σ : Type} (step : σ → Nat → Nat → σ × Bool) (minS maxS : Nat)
    (b : Nat) (rest : List Nat) (st : σ) (i : Nat) :
    i + 1 ≤ scanChunk step minS maxS (b :: rest) st i := by
  simp only [scanChunk]
  split
  · omega
  · split
    · omega
    · have hr := scanChunk_ge step minS maxS rest (step st b i).1 (i + 1)
      omega

theorem scanChunk_le_max {σ : Type} (step : σ → Nat → Nat → σ × Bool) (minS maxS : Nat) :
    ∀ (s : List Nat) (st : σ) (i : Nat), i < maxS → scanChunk step minS maxS s st i ≤ maxS := by
  intro s
  induction s with
  | nil =>
    intro st i h
    simp only [scanChunk]
    omega
  | cons b rest ih =>
    intro st i h
    simp only [scanChunk]
    split
    · omega
    · split
      · omega
      · exact ih (step st b i).1 (i + 1) (by omega)

theorem scanChunk_min {σ : Type} (step : σ → Nat → Nat → σ × Bool) (minS maxS : Nat)
    (hms : minS ≤ maxS) :
    ∀ (s : List Nat) (st : σ) (i : Nat),
      scanChunk step minS maxS s st i < i + s.length →
        minS ≤ scanChunk step minS maxS s st i := by
  intro s
  induction s with
  | nil =>
    intro st i h
    simp [scanChunk] at h
  | cons b rest ih =>
    intro st i h
    simp only [scanChunk, List.length_cons] at h ⊢
    by_cases h1 : maxS ≤ i + 1
    · rw [if_pos h1] at h ⊢
      omega
    · rw [if_neg h1] at h ⊢
      by_cases h2 : minS ≤ i + 1 ∧ (step st b i).2 = true
      · rw [if_pos h2] at h ⊢
        omega
      · rw [if_neg h2] at h ⊢
        exact ih (step st b i).1 (i + 1) (by omega)

theorem chunkAllAux_nil {σ : Type} (step : σ → Nat → Nat → σ × Bool) (minS maxS : Nat)
    (st0 : σ) : ∀ fuel, chunkAllAux step minS maxS st0 fuel [] = [] := by
  intro fuel
  cases fuel with
  | zero => rfl
  | succ fuel => rfl

theorem chunkAllAux_flatten {σ : Type} (step : σ → Nat → Nat → σ × Bool) (minS maxS : Nat)
    (st0 : σ) :
    ∀ (fuel : Nat) (s : List Nat), s.length ≤ fuel →
      (chunkAllAux step minS maxS st0 fuel s).flatten = s := by
  intro fuel
  induction fuel with
  | zero =>
    intro s hs
    have hs0 : s = [] := List.length_eq_zero.mp (by omega)
    subst hs0
    rfl
  | succ fuel ih =>
    intro s hs
    cases s with
    | nil => rfl
    | cons b rest =>
      simp only [chunkAllAux, List.flatten_cons]
      rw [ih]
      · exact List.take_append_drop _ _
      · have h1 := scanChunk_pos step minS maxS b rest st0 0
        simp only [List.length_drop, List.length_cons] at *
        omega

theorem chunkAllAux_mem_length {σ : Type} (step : σ → Nat → Nat → σ × Bool)
    (minS maxS : Nat) (st0 : σ) (hmax : 0 < maxS) :
    ∀ (fuel : Nat) (s : List Nat), s.length ≤ fuel →
      ∀ C ∈ chunkAllAux step minS maxS st0 fuel s, 1 ≤ C.length ∧ C.length ≤ maxS := by
  intro fuel
  induction fuel with
  | zero =>
    intro s hs C hC
    have hs0 : s = [] := List.length_eq_zero.mp (by omega)
    subst hs0
    cases hC
  | succ fuel ih =>
    intro s hs C hC
    cases s with
    | nil => cases hC
    | cons b rest =>
      simp only [chunkAllAux] at hC
      have h1 := scanChunk_pos step minS maxS b rest st0 0
      have h2 := scanChunk_le step minS maxS (b :: rest) st0 0
      have h3 := scanChunk_le_max step minS maxS (b :: rest) st0 0 hmax
      rcases List.mem_cons.mp hC with hC | hC
      · subst hC
        constructor
        · rw [List.length_take]
          simp only [List.length_cons] at *
          omega
        · rw [List.length_take]
          omega
      · refine ih _ ?_ C hC
        simp only [List.length_drop, List.length_cons] at *
        omega

theorem chunkAllAux_dropLast_min {σ : Type} (step : σ → Nat → Nat → σ × Bool)
    (minS maxS : Nat) (st0 : σ) (hms : minS ≤ maxS) :
    ∀ (fuel : Nat) (s : List Nat), s.length ≤ fuel →
      ∀ C ∈ (chunkAllAux step minS maxS st0 fuel s).dropLast, minS ≤ C.length := by
  intro fuel
  induction fuel with
  | zero =>
    intro s hs C hC
    have hs0 : s = [] := List.length_eq_zero.mp (by omega)
    subst hs0
    cases hC
  | succ fuel ih =>
    intro s hs C hC
    cases s with
    | nil => cases hC
    | cons b rest =>
      simp only [chunkAllAux] at hC
      rcases hrc : chunkAllAux step minS maxS st0 fuel
          ((b :: rest).drop (scanChunk step minS maxS (b :: rest) st0 0)) with _ | ⟨c2, cs⟩
      · rw [hrc] at hC
        cases hC
      · rw [hrc, List.dropLast_cons₂] at hC
        have h1 := scanChunk_pos step minS maxS b rest st0 0
        have h2 := scanChunk_le step minS maxS (b :: rest) st0 0
        rcases List.mem_cons.mp hC with hC | hC
        · subst hC
          have hdrop : (b :: rest).drop (scanChunk step minS maxS (b :: rest) st0 0) ≠ [] := by
            intro he
            rw [he, chunkAllAux_nil] at hrc
            cases hrc
          have hlt : scanChunk step minS maxS (b :: rest) st0 0 < (b :: rest).length := by
            by_contra hge
            exact hdrop (List.drop_eq_nil_of_le (by omega))
          have hmin := scanChunk_min step minS maxS hms (b :: rest) st0 0
            (by simpa using hlt)
          rw [List.length_take]
          omega
        · rw [← hrc] at hC
          refine ih _ ?_ C hC
          simp only [List.length_drop, List.length_cons] at *
          omega

/-- Claim C1: chunking is deterministic: two complete runs over the same
input by fresh chunker instances created from the same config produce
identical chunk sequences (hence identical boundaries and bit-identical
contents).  In this embedding a run is a pure function of the config and
the input — it consults no clock, randomness or global state — so any two
runs from equal configs coincide. -/
theorem c1_determinism (c : ChunkerType) (s : List Nat) (r1 r2 : List (List Nat))
    (h1 : r1 = chunkerRun c s) (h2 : r2 = chunkerRun c s) : r1 = r2 :=
  h1.trans h2.symm

/-- Claim C1, witness. -/
theorem c1_determinism_witness :
    chunkerRun (ChunkerType.FastCdc 16 0) [1, 2, 3] =
      chunkerRun (ChunkerType.FastCdc 16 0) [1, 2, 3] :=
  c1_determinism (ChunkerType.FastCdc 16 0) [1, 2, 3] _ _ rfl rfl

/-- Claim C2: for every config and input, the concatenation of the emitted
chunks, in order, is the input byte sequence itself: no bytes are lost,
reordered or duplicated. -/
theorem c2_reconstruction (c : ChunkerType) (s : List Nat) :
    (chunkerRun c s).flatten = s := by
  cases c with
  | Ae a => exact chunkAllAux_flatten _ _ _ _ s.length s le_rfl
  | Rabin a sd => exact chunkAllAux_flatten _ _ _ _ s.length s le_rfl
  | FastCdc a sd => exact chunkAllAux_flatten _ _ _ _ s.length s le_rfl

/-- Claim C4: with a positive target average `A`, every emitted chunk `C`
has `1 ≤ |C| ≤ A * 4`, and every chunk other than the final one has
`A / 4 ≤ |C|` (only the EOF-forced tail may be shorter than `min_size`). -/
theorem c4_size_bounds (c : ChunkerType) (s : List Nat) (h : 0 < c.avg_size) :
    (∀ C ∈ chunkerRun c s, 1 ≤ C.length ∧ C.length ≤ c.avg_size * 4) ∧
    (∀ C ∈ (chunkerRun c s).dropLast, c.avg_size / 4 ≤ C.length) := by
  have hms : c.avg_size / 4 ≤ c.avg_size * 4 := by
    have hd := Nat.div_le_self c.avg_size 4
    omega
  have hmax : 0 < c.avg_size * 4 := by omega
  cases c with
  | Ae a =>
    exact ⟨chunkAllAux_mem_length _ _ _ _ hmax s.length s le_rfl,
      chunkAllAux_dropLast_min _ _ _ _ hms s.length s le_rfl⟩
  | Rabin a sd =>
    exact ⟨chunkAllAux_mem_length _ _ _ _ hmax s.length s le_rfl,
      chunkAllAux_dropLast_min _ _ _ _ hms s.length s le_rfl⟩
  | FastCdc a sd =>
    exact ⟨chunkAllAux_mem_length _ _ _ _ hmax s.length s le_rfl,
      chunkAllAux_dropLast_min _ _ _ _ hms s.length s le_rfl⟩

/-- Claim C4, witness. -/
theorem c4_size_bounds_witness :
    (∀ C ∈ chunkerRun (ChunkerType.Ae 4) [9, 9, 9, 9, 9],
      1 ≤ C.length ∧ C.length ≤ (ChunkerType.Ae 4).avg_size * 4) ∧
    (∀ C ∈ (chunkerRun (ChunkerType.Ae 4) [9, 9, 9, 9, 9]).dropLast,
      (ChunkerType.Ae 4).avg_size / 4 ≤ C.length) :=
  c4_size_bounds (ChunkerType.Ae 4) [9, 9, 9, 9, 9] (by decide)

end ZVault
